import Mathlib

/-!
# Verification of the streaming transport and multiplexing protocol

This file gives a shallow embedding of the repository's streaming core:

* the line-oriented tagged wire protocol (text lines of the shape
  0:<JSON string> and data lines of the shape 2:<JSON array>, each
  newline-terminated), with its encoder and client-side decoder;
* the side-channel multiplexer joining a text-fragment sequence with an
  independently produced data-event sequence (with its closing-order
  invariant);
* the provider adapter pipeline in plain (untagged) mode;
* the client-state consumer hook "useCompletion": keyed shared completion
  cache, the trigger's reset/fetch/read loop, cancellation via the abort
  signal, and transport-failure handling.

The encoder, decoder, multiplexer and provider adapter are modelled from
the specification, since the repository snapshot contains only their tests
and callers; the "useCompletion" hook is embedded from its source.
Strings are represented as lists of characters so that every definition is
structurally recursive and computable.
-/

/-! ## JSON values

Modelled from the spec: data events are "arbitrary JSON-serializable
values", and wire payloads are "always valid JSON".  Values are a mutual
inductive of null, booleans, strings, arrays and objects. -/

mutual
/-- Modelled from the spec: a JSON-serializable value (section 3, "Data
event"), used as the payload universe for the side channel. -/
inductive Json where
  | null : Json
  | bool : Bool → Json
  | str : List Char → Json
  | arr : JsonList → Json
  | obj : JsonKVs → Json
deriving DecidableEq
/-- List of JSON values (the elements of a JSON array). -/
inductive JsonList where
  | nil : JsonList
  | cons : Json → JsonList → JsonList
deriving DecidableEq
/-- Key/value fields of a JSON object. -/
inductive JsonKVs where
  | nil : JsonKVs
  | cons : List Char → Json → JsonKVs → JsonKVs
deriving DecidableEq
end

/-- JSON string escaping of one character, as produced by a compact
serializer: quote, backslash and the common control characters get
two-character escapes; everything else is passed through. -/
def escapeChar (c : Char) : List Char :=
  if c = '"' then ['\\', '"']
  else if c = '\\' then ['\\', '\\']
  else if c = '\n' then ['\\', 'n']
  else if c = '\r' then ['\\', 'r']
  else if c = '\t' then ['\\', 't']
  else [c]

/-- JSON string escaping of a whole string body. -/
def escapeString : List Char → List Char
  | [] => []
  | c :: cs => escapeChar c ++ escapeString cs

/-- Inverse table of the two-character escapes recognised inside a JSON
string literal. -/
def unescapeChar (c : Char) : Option Char :=
  if c = '"' then some '"'
  else if c = '\\' then some '\\'
  else if c = 'n' then some '\n'
  else if c = 'r' then some '\r'
  else if c = 't' then some '\t'
  else none

/-- Parse the body of a JSON string literal (the part after the opening
quote) up to and including the closing quote; returns the decoded string
and the remaining input. -/
def parseStringBody : List Char → Option (List Char × List Char)
  | [] => none
  | c :: r =>
    if c = '"' then some ([], r)
    else if c = '\\' then
      match r with
      | [] => none
      | e :: r2 =>
        match unescapeChar e with
        | some u =>
          match parseStringBody r2 with
          | some (s, rest) => some (u :: s, rest)
          | none => none
        | none => none
    else
      match parseStringBody r with
      | some (s, rest) => some (c :: s, rest)
      | none => none

mutual
/-- Modelled from the spec: compact JSON serialization of a value, as the
wire grammar's "JSON-encoded payload" (section 3, "Protocol frame"). -/
def printJson : Json → List Char
  | .null => "null".toList
  | .bool b => if b then "true".toList else "false".toList
  | .str s => '"' :: (escapeString s ++ ['"'])
  | .arr xs => '[' :: printArrFirst xs
  | .obj kvs => '{' :: printObjFirst kvs
/-- Serialization of array elements directly after the opening bracket. -/
def printArrFirst : JsonList → List Char
  | .nil => [']']
  | .cons v vs => printJson v ++ printArrTail vs
/-- Serialization of array elements after the first one (comma-led). -/
def printArrTail : JsonList → List Char
  | .nil => [']']
  | .cons v vs => ',' :: (printJson v ++ printArrTail vs)
/-- Serialization of object fields directly after the opening brace. -/
def printObjFirst : JsonKVs → List Char
  | .nil => ['}']
  | .cons k v kvs => '"' :: (escapeString k ++ '"' :: ':' :: (printJson v ++ printObjTail kvs))
/-- Serialization of object fields after the first one (comma-led). -/
def printObjTail : JsonKVs → List Char
  | .nil => ['}']
  | .cons k v kvs => ',' :: '"' :: (escapeString k ++ '"' :: ':' :: (printJson v ++ printObjTail kvs))
end

mutual
/-- Fuel needed by the recursive-descent parser to consume a value. -/
def fuelV : Json → Nat
  | .null => 1
  | .bool _ => 1
  | .str _ => 1
  | .arr xs => 1 + fuelAF xs
  | .obj kvs => 1 + fuelOF kvs
/-- Fuel needed to consume array elements at the opening bracket. -/
def fuelAF : JsonList → Nat
  | .nil => 1
  | .cons v vs => 1 + max (fuelV v) (fuelAT vs)
/-- Fuel needed to consume array elements after the first one. -/
def fuelAT : JsonList → Nat
  | .nil => 1
  | .cons v vs => 1 + max (fuelV v) (fuelAT vs)
/-- Fuel needed to consume object fields at the opening brace. -/
def fuelOF : JsonKVs → Nat
  | .nil => 1
  | .cons _ v kvs => 1 + max (fuelV v) (fuelOT kvs)
/-- Fuel needed to consume object fields after the first one. -/
def fuelOT : JsonKVs → Nat
  | .nil => 1
  | .cons _ v kvs => 1 + max (fuelV v) (fuelOT kvs)
end

/-- Parsing mode of the recursive-descent JSON parser: a whole value, the
elements of an array (at or after the first element), or the fields of an
object (at or after the first field). -/
inductive PTask where
  | value
  | arrFirst
  | arrTail
  | objFirst
  | objTail
deriving DecidableEq

/-- Result category of one parsing step, matching the task that was run. -/
inductive POut where
  | val : Json → POut
  | items : JsonList → POut
  | fields : JsonKVs → POut
deriving DecidableEq

/-- Modelled from the spec: the client-side JSON payload parser used by the
protocol decoder (section 4.5).  Fuel-indexed recursive descent; returns
the parsed entity and the unconsumed remainder of the input. -/
def parseStep : Nat → PTask → List Char → Option (POut × List Char)
  | 0, _, _ => none
  | f + 1, .value, input =>
    match input with
    | 'n' :: 'u' :: 'l' :: 'l' :: r => some (.val .null, r)
    | 't' :: 'r' :: 'u' :: 'e' :: r => some (.val (.bool true), r)
    | 'f' :: 'a' :: 'l' :: 's' :: 'e' :: r => some (.val (.bool false), r)
    | '"' :: r =>
      match parseStringBody r with
      | some (s, r2) => some (.val (.str s), r2)
      | none => none
    | '[' :: r =>
      match parseStep f .arrFirst r with
      | some (.items xs, r2) => some (.val (.arr xs), r2)
      | _ => none
    | '{' :: r =>
      match parseStep f .objFirst r with
      | some (.fields kvs, r2) => some (.val (.obj kvs), r2)
      | _ => none
    | _ => none
  | f + 1, .arrFirst, input =>
    if input.head? = some ']' then some (.items .nil, input.tail)
    else
      match parseStep f .value input with
      | some (.val v, r2) =>
        match parseStep f .arrTail r2 with
        | some (.items vs, r3) => some (.items (.cons v vs), r3)
        | _ => none
      | _ => none
  | f + 1, .arrTail, input =>
    if input.head? = some ']' then some (.items .nil, input.tail)
    else if input.head? = some ',' then
      match parseStep f .value input.tail with
      | some (.val v, r2) =>
        match parseStep f .arrTail r2 with
        | some (.items vs, r3) => some (.items (.cons v vs), r3)
        | _ => none
      | _ => none
    else none
  | f + 1, .objFirst, input =>
    if input.head? = some '}' then some (.fields .nil, input.tail)
    else if input.head? = some '"' then
      match parseStringBody input.tail with
      | some (k, r2) =>
        if r2.head? = some ':' then
          match parseStep f .value r2.tail with
          | some (.val v, r3) =>
            match parseStep f .objTail r3 with
            | some (.fields kvs, r4) => some (.fields (.cons k v kvs), r4)
            | _ => none
          | _ => none
        else none
      | none => none
    else none
  | f + 1, .objTail, input =>
    if input.head? = some '}' then some (.fields .nil, input.tail)
    else if input.head? = some ',' then
      match input.tail with
      | '"' :: r1 =>
        match parseStringBody r1 with
        | some (k, r2) =>
          if r2.head? = some ':' then
            match parseStep f .value r2.tail with
            | some (.val v, r3) =>
              match parseStep f .objTail r3 with
              | some (.fields kvs, r4) => some (.fields (.cons k v kvs), r4)
              | _ => none
            | _ => none
          else none
        | none => none
      | _ => none
    else none

/-! ## Wire protocol: tagged byte stream encoder and decoder -/

/-- One unit of the multiplexed wire stream: either a text fragment or one
batch of data events (section 3, "Protocol frame"). -/
inductive StreamPart where
  | text : List Char → StreamPart
  | data : JsonList → StreamPart
deriving DecidableEq

/-- Modelled from the spec: the body (without the terminating newline) of a
text protocol line, tag 0 followed by a colon and the JSON-string-encoded
fragment. -/
def textLineBody (s : List Char) : List Char :=
  '0' :: ':' :: '"' :: (escapeString s ++ ['"'])

/-- Modelled from the spec: the body (without the terminating newline) of a
data protocol line, tag 2 followed by a colon and the JSON-array-encoded
batch of data events. -/
def dataLineBody (xs : JsonList) : List Char :=
  '2' :: ':' :: printJson (.arr xs)

/-- Line body of one stream part. -/
def lineBody : StreamPart → List Char
  | .text s => textLineBody s
  | .data xs => dataLineBody xs

/-- Modelled from the spec: the protocol encoder emits each unit as one
self-terminating, newline-terminated line (section 4.4). -/
def encodePart (p : StreamPart) : List Char :=
  lineBody p ++ ['\n']

/-- Modelled from the spec: the protocol encoder's byte stream for an
ordered sequence of units, the concatenation of their encoded lines. -/
def encodeStream (ps : List StreamPart) : List Char :=
  (ps.map encodePart).flatten

/-- Split a byte stream into its complete newline-terminated lines
(newlines stripped) and the trailing partial line, the frame reader's
partial-line buffering discipline (section 4.1). -/
def splitLines : List Char → List (List Char) × List Char
  | [] => ([], [])
  | c :: r =>
    if c = '\n' then
      ([] :: (splitLines r).1, (splitLines r).2)
    else
      match splitLines r with
      | ([], rem) => ([], c :: rem)
      | (l :: ls, rem) => ((c :: l) :: ls, rem)

/-- Modelled from the spec: the protocol decoder for one wire line: parse
the single-digit tag, then the JSON payload, requiring the payload to be
fully consumed; tag 0 must carry a JSON string, tag 2 a JSON array, and
any other line is a decode error (sections 4.5 and 6). -/
def decodeLine (l : List Char) : Option StreamPart :=
  match l with
  | '0' :: ':' :: rest =>
    match parseStep rest.length .value rest with
    | some (.val (.str s), []) => some (.text s)
    | _ => none
  | '2' :: ':' :: rest =>
    match parseStep rest.length .value rest with
    | some (.val (.arr xs), []) => some (.data xs)
    | _ => none
  | _ => none

/-- Decode a list of wire lines, failing if any single line fails. -/
def decodeLines : List (List Char) → Option (List StreamPart)
  | [] => some []
  | l :: ls =>
    match decodeLine l with
    | some p =>
      match decodeLines ls with
      | some ps => some (p :: ps)
      | none => none
    | none => none

/-- Modelled from the spec: the client-side protocol decoder: split the
byte stream into lines (a trailing partial line is a decode failure, the
stream must end on a line boundary) and decode each line. -/
def decodeStream (s : List Char) : Option (List StreamPart) :=
  match splitLines s with
  | (ls, []) => decodeLines ls
  | _ => none

/-! ## Side-channel multiplexer: closing-order state machine

Modelled from the spec (sections 4.4, 5 and 6): the combined stream joins
the canonical text sequence with the independently appended data-event
sequence; the end-of-stream marker may be emitted only after the text
sequence is exhausted and the data producer has called close. -/

/-- One item of the multiplexer's output: an encoded protocol line for a
stream part, or the end-of-stream marker. -/
inductive OutItem where
  | line : StreamPart → OutItem
  | eos : OutItem
deriving DecidableEq

/-- Modelled from the spec: state of one multiplexed stream session:
remaining text fragments, whether the data producer has closed, the
history of appended data batches, the emitted output, and whether the
combined stream has signalled end-of-stream. -/
structure MuxState where
  text : List (List Char)
  closed : Bool
  appended : List JsonList
  out : List OutItem
  finished : Bool
deriving DecidableEq

/-- Initial multiplexer state for a session whose canonical text sequence
is t: no data appended, data channel open, nothing emitted. -/
def initMux (t : List (List Char)) : MuxState :=
  { text := t, closed := false, appended := [], out := [], finished := false }

/-- Modelled from the spec: one step of the multiplexer.  Text emission
consumes the next fragment in producer order; the data producer may append
a batch (emitted as one data line) or close, both only while the channel
is open; the end-of-stream marker requires the text sequence exhausted AND
the data channel closed (the closing-order join of section 4.4). -/
inductive MuxStep : MuxState → MuxState → Prop
  | emitText (s : MuxState) (f : List Char) (rest : List (List Char)) :
      s.text = f :: rest → s.finished = false →
      MuxStep s { s with text := rest, out := s.out ++ [.line (.text f)] }
  | appendData (s : MuxState) (b : JsonList) :
      s.closed = false → s.finished = false →
      MuxStep s { s with appended := s.appended ++ [b], out := s.out ++ [.line (.data b)] }
  | closeData (s : MuxState) :
      s.closed = false → s.finished = false →
      MuxStep s { s with closed := true }
  | finish (s : MuxState) :
      s.text = [] → s.closed = true → s.finished = false →
      MuxStep s { s with finished := true, out := s.out ++ [.eos] }

/-- Reachability of a multiplexer state from the initial state of a
session by any interleaving of steps. -/
def MuxReach (t : List (List Char)) (s : MuxState) : Prop :=
  Relation.ReflTransGen MuxStep (initMux t) s

/-- Text fragments carried by an output history, in emission order. -/
def outTexts (out : List OutItem) : List (List Char) :=
  out.filterMap fun o =>
    match o with
    | .line (.text f) => some f
    | _ => none

/-- Data batches carried by an output history, in emission order. -/
def outData (out : List OutItem) : List JsonList :=
  out.filterMap fun o =>
    match o with
    | .line (.data b) => some b
    | _ => none

/-! ## Plain (untagged) mode: provider adapter and passthrough -/

/-- Modelled from the spec: one decoded provider frame of the
newline-delimited JSON wire format, carrying the extracted text delta and
the structural finish flag (the provider's terminal marker). -/
structure ProviderFrame where
  text : List Char
  isFinished : Bool
deriving DecidableEq

/-- Modelled from the spec: the provider adapter's canonical text stream:
the extracted deltas of the frames preceding the first frame matched by
the terminal predicate (sections 4.2 and 4.3). -/
def canonicalText (frames : List ProviderFrame) : List (List Char) :=
  (frames.takeWhile fun fr => !fr.isFinished).map fun fr => fr.text

/-- Modelled from the spec: in plain mode the encoder passes the raw text
fragment bytes through unmodified, one chunk per fragment (section 4.4,
"degrades to passing raw text fragment bytes through unmodified"). -/
def plainEncode (frags : List (List Char)) : List (List Char) :=
  frags

/-- Modelled from the spec: the client-side chunk decode in plain mode is
plain text decoding of each delivered chunk (decodeAIStreamChunk). -/
def plainDecodeChunks (chunks : List (List Char)) : List (List Char) :=
  chunks.map fun c => c

/-- Modelled from the spec: the end-to-end plain-mode pipeline: provider
frames to canonical text, passed through untagged, decoded by the client
chunk by chunk. -/
def plainPipeline (frames : List ProviderFrame) : List (List Char) :=
  plainDecodeChunks (plainEncode (canonicalText frames))

/-! ## Client-state consumer: the useCompletion hook

Embedded from the source (src/unnamed/part_000).  The trigger mutation
creates an abort controller, empties the completion, issues the fetch,
checks status and body, then reads the response stream chunk by chunk,
appending each decoded chunk to the completion state.  An AbortError is
swallowed (the session is aborted, not errored); any other thrown error
surfaces through the mutation hook's error. -/

/-- Observable events of one trigger run, in program order: a completion
cache write (a mutate call), the fetch being issued, a read being issued
on the body reader (numbered from 0), and an explicit reader cancel. -/
inductive Ev where
  | writeCompletion : List Char → Ev
  | fetchStart : Ev
  | readStart : Nat → Ev
  | readerCancel : Ev
deriving DecidableEq

/-- Terminal state of one trigger run: resolved with the final text,
aborted (AbortError swallowed, resolves null, no error surfaced), or
errored with the thrown message. -/
inductive Outcome where
  | completed : List Char → Outcome
  | aborted : Outcome
  | errored : String → Outcome
deriving DecidableEq

/-- Transport-level result of the fetch call: a connection failure, or a
response with a success flag, a body-present flag and the body's chunks. -/
inductive Transport where
  | connFail : Transport
  | resp : Bool → Bool → List (List Char) → Transport
deriving DecidableEq

/-- Embedded from the source (line 185): the read loop's post-read
cancellation check compares the local abortController constant, created at
line 138 of the source, against null.  That local constant is never null,
so this check is inert; cancellation takes effect through the abort
signal rejecting the pending read instead. -/
def loopAbortCheck (localController : Option Unit) : Bool :=
  localController.isNone

/-- Embedded from the source (lines 174-189): the read loop.  One read is
issued per iteration; in the cooperative single-threaded model the
consumer's abort can only be delivered while a read is pending, so an
abort scheduled at read i makes that read reject with AbortError (the
fetch signal), which the catch handler swallows.  Otherwise a delivered
chunk is appended to the result and written to the completion state, and
the inert post-read null check is evaluated.  Returns the events, the
accumulated result, and whether the run was aborted. -/
def readLoop : List (List Char) → Option Nat → Nat → List Char →
    List Ev × List Char × Bool
  | chunks, abortAt, i, acc =>
    if abortAt = some i then
      ([.readStart i], acc, true)
    else
      match chunks with
      | [] => ([.readStart i], acc, false)
      | c :: rest =>
        let acc2 := acc ++ c
        if loopAbortCheck (some ()) then
          ([.readStart i, .writeCompletion acc2, .readerCancel], acc2, false)
        else
          let cont := readLoop rest abortAt (i + 1) acc2
          (.readStart i :: .writeCompletion acc2 :: cont.1, cont.2.1, cont.2.2)

/-- Embedded from the source (lines 136-206): one run of the trigger
mutation.  It writes the empty completion first, issues the fetch, fails
(throwing, hence erroring the session) on connection failure, non-success
status or a missing body, and otherwise runs the read loop; an aborted
loop resolves with null and surfaces no error. -/
def runTrigger (t : Transport) (abortAt : Option Nat) :
    List Ev × List Char × Outcome :=
  match t with
  | .connFail =>
    ([.writeCompletion [], .fetchStart], [], .errored "connection error")
  | .resp ok hasBody chunks =>
    if !ok then
      ([.writeCompletion [], .fetchStart], [],
        .errored "Failed to fetch the completion response.")
    else if !hasBody then
      ([.writeCompletion [], .fetchStart], [],
        .errored "The response body is empty.")
    else
      let loop := readLoop chunks abortAt 0 []
      (.writeCompletion [] :: .fetchStart :: loop.1, loop.2.1,
        if loop.2.2 then .aborted else .completed loop.2.1)

/-- Apply one event to the externally visible completion value: a cache
write replaces it, everything else leaves it unchanged. -/
def applyEv (v : List Char) (e : Ev) : List Char :=
  match e with
  | .writeCompletion s => s
  | _ => v

/-- The externally visible completion value after a list of events, given
the value before the run (for example a supplied initialCompletion). -/
def visibleAfter (prev : List Char) (evs : List Ev) : List Char :=
  evs.foldl applyEv prev

/-- The sequence of completion cache writes in an event list. -/
def writesOf (evs : List Ev) : List (List Char) :=
  evs.filterMap fun e =>
    match e with
    | .writeCompletion s => some s
    | _ => none

/-- Whether an event is a read being issued. -/
def isRead (e : Ev) : Bool :=
  match e with
  | .readStart _ => true
  | _ => false

/-- Number of reads issued in an event list. -/
def countReads (evs : List Ev) : Nat :=
  (evs.filter isRead).length

/-- Whether an event is the fetch being issued. -/
def isFetch (e : Ev) : Bool :=
  match e with
  | .fetchStart => true
  | _ => false

/-- Number of fetch attempts in an event list. -/
def countFetches (evs : List Ev) : Nat :=
  (evs.filter isFetch).length

/-- Whether a transport result is a failure in the sense of the error
taxonomy's transport class: connection failure, non-success status, or
missing body. -/
def isTransportFailure : Transport → Bool
  | .connFail => true
  | .resp ok hasBody _ => !ok || !hasBody

/-- Embedded from the source (lines 102-104): the completion id is the
caller-supplied id if it is truthy (present and non-empty), and otherwise
the hook instance's generated unique id. -/
def completionId (id : Option String) (hookId : String) : String :=
  match id with
  | some s => if s = "" then hookId else s
  | none => hookId

/-- Embedded from the source (line 107): the SWR cache key of the shared
completion state, the pair of the API endpoint and the completion id. -/
def swrKey (api : String) (id : Option String) (hookId : String) :
    String × String :=
  (api, completionId id hookId)

/-- Reading the shared, externally managed completion cache at a key. -/
def cacheRead (cache : String × String → List Char) (k : String × String) :
    List Char :=
  cache k

/-! ## Concrete values used by claim statements -/

/-- The single data event of the tagged-mode scenario: the JSON object
with one field t1 whose value is the string v1. -/
def c1Batch : JsonList :=
  .cons (.obj (.cons ['t', '1'] (.str ['v', '1']) .nil)) .nil

/-- The fragment sequence of the plain-mode scenario. -/
def cohereFrags : List (List Char) :=
  [[' ', 'H', 'e', 'l', 'l', 'o'], [','], [' ', 'w', 'o', 'r', 'l', 'd'], ['.'], [' ']]

/-- Invariant of reachable multiplexer states: emitted text plus pending
text is the session's text sequence, emitted data lines are exactly the
appended batches, the end-of-stream marker appears only once the stream is
finished, and a finished stream has drained its text, seen close, and put
the marker last. -/
def MuxInv (t : List (List Char)) (s : MuxState) : Prop :=
  (outTexts s.out ++ s.text = t) ∧
  (outData s.out = s.appended) ∧
  (s.finished = false → OutItem.eos ∉ s.out) ∧
  (s.finished = true → s.text = [] ∧ s.closed = true ∧
    ∃ pre, s.out = pre ++ [OutItem.eos] ∧ OutItem.eos ∉ pre)

/-! ## Helper lemmas: JSON string codec -/

theorem parseStringBody_escape (s : List Char) :
    ∀ rest, parseStringBody (escapeString s ++ '"' :: rest) = some (s, rest) := by
  induction s with
  | nil =>
    intro rest
    rw [escapeString, List.nil_append, parseStringBody.eq_def]
    simp
  | cons c cs ih =>
    intro rest
    rw [escapeString, List.append_assoc]
    by_cases h1 : c = '"'
    · subst h1
      simp only [escapeChar, if_pos rfl, List.cons_append, List.nil_append]
      rw [parseStringBody.eq_def]
      simp [unescapeChar, ih]
    · by_cases h2 : c = '\\'
      · subst h2
        simp only [escapeChar]
        norm_num
        rw [parseStringBody.eq_def]
        simp [unescapeChar, ih]
      · by_cases h3 : c = '\n'
        · subst h3
          simp only [escapeChar]
          norm_num
          rw [parseStringBody.eq_def]
          simp [unescapeChar, ih]
        · by_cases h4 : c = '\r'
          · subst h4
            simp only [escapeChar]
            norm_num
            rw [parseStringBody.eq_def]
            simp [unescapeChar, ih]
          · by_cases h5 : c = '\t'
            · subst h5
              simp only [escapeChar]
              norm_num
              rw [parseStringBody.eq_def]
              simp [unescapeChar, ih]
            · simp only [escapeChar, if_neg h1, if_neg h2, if_neg h3, if_neg h4, if_neg h5,
                List.cons_append, List.nil_append]
              rw [parseStringBody.eq_def]
              simp [h1, h2, ih]

theorem newline_not_mem_escapeChar (c : Char) : '\n' ∉ escapeChar c := by
  by_cases h1 : c = '"'
  · subst h1; decide
  · by_cases h2 : c = '\\'
    · subst h2; decide
    · by_cases h3 : c = '\n'
      · subst h3; decide
      · by_cases h4 : c = '\r'
        · subst h4; decide
        · by_cases h5 : c = '\t'
          · subst h5; decide
          · simp [escapeChar, h1, h2, h3, h4, h5]
            exact fun h => h3 h.symm

theorem newline_not_mem_escapeString (s : List Char) : '\n' ∉ escapeString s := by
  induction s with
  | nil => simp [escapeString]
  | cons c cs ih =>
    simp only [escapeString, List.mem_append]
    rintro (h | h)
    · exact newline_not_mem_escapeChar c h
    · exact ih h

theorem printJson_cons_head (v : Json) :
    ∃ c cs, printJson v = c :: cs ∧ c ≠ ']' ∧ c ≠ ',' ∧ c ≠ '}' := by
  cases v with
  | null => exact ⟨'n', ['u', 'l', 'l'], rfl, by decide, by decide, by decide⟩
  | bool b =>
    cases b with
    | true => exact ⟨'t', ['r', 'u', 'e'], rfl, by decide, by decide, by decide⟩
    | false => exact ⟨'f', ['a', 'l', 's', 'e'], rfl, by decide, by decide, by decide⟩
  | str s => exact ⟨'"', escapeString s ++ ['"'], rfl, by decide, by decide, by decide⟩
  | arr xs => exact ⟨'[', printArrFirst xs, rfl, by decide, by decide, by decide⟩
  | obj kvs => exact ⟨'{', printObjFirst kvs, rfl, by decide, by decide, by decide⟩

theorem one_le_fuelV (v : Json) : 1 ≤ fuelV v := by
  cases v <;> simp [fuelV]

theorem one_le_fuelAF (xs : JsonList) : 1 ≤ fuelAF xs := by
  cases xs <;> simp [fuelAF]

theorem one_le_fuelAT (xs : JsonList) : 1 ≤ fuelAT xs := by
  cases xs <;> simp [fuelAT]

theorem one_le_fuelOF (kvs : JsonKVs) : 1 ≤ fuelOF kvs := by
  cases kvs <;> simp [fuelOF]

theorem one_le_fuelOT (kvs : JsonKVs) : 1 ≤ fuelOT kvs := by
  cases kvs <;> simp [fuelOT]

theorem head?_append_of_eq_cons {l : List Char} {c : Char} {cs t : List Char}
    (h : l = c :: cs) : (l ++ t).head? = some c := by
  subst h; rfl

theorem parseStep_print (f : Nat) :
    (∀ v rest, fuelV v ≤ f →
      parseStep f .value (printJson v ++ rest) = some (.val v, rest)) ∧
    (∀ xs rest, fuelAF xs ≤ f →
      parseStep f .arrFirst (printArrFirst xs ++ rest) = some (.items xs, rest)) ∧
    (∀ xs rest, fuelAT xs ≤ f →
      parseStep f .arrTail (printArrTail xs ++ rest) = some (.items xs, rest)) ∧
    (∀ kvs rest, fuelOF kvs ≤ f →
      parseStep f .objFirst (printObjFirst kvs ++ rest) = some (.fields kvs, rest)) ∧
    (∀ kvs rest, fuelOT kvs ≤ f →
      parseStep f .objTail (printObjTail kvs ++ rest) = some (.fields kvs, rest)) := by
  induction f with
  | zero =>
    refine ⟨?_, ?_, ?_, ?_, ?_⟩
    · intro v rest hf; have := one_le_fuelV v; omega
    · intro xs rest hf; have := one_le_fuelAF xs; omega
    · intro xs rest hf; have := one_le_fuelAT xs; omega
    · intro kvs rest hf; have := one_le_fuelOF kvs; omega
    · intro kvs rest hf; have := one_le_fuelOT kvs; omega
  | succ f ih =>
    obtain ⟨ihv, ihaf, ihat, ihof, ihot⟩ := ih
    refine ⟨?_, ?_, ?_, ?_, ?_⟩
    · intro v rest hf
      cases v with
      | null =>
        rw [show printJson .null = ['n', 'u', 'l', 'l'] from by decide]
        rw [parseStep.eq_def]; simp
      | bool b =>
        cases b with
        | true =>
          rw [show printJson (.bool true) = ['t', 'r', 'u', 'e'] from by decide]
          rw [parseStep.eq_def]; simp
        | false =>
          rw [show printJson (.bool false) = ['f', 'a', 'l', 's', 'e'] from by decide]
          rw [parseStep.eq_def]; simp
      | str s =>
        rw [show printJson (.str s) = '"' :: (escapeString s ++ ['"']) from rfl]
        rw [parseStep.eq_def]
        simp [List.append_assoc, parseStringBody_escape]
      | arr xs =>
        rw [show printJson (.arr xs) = '[' :: printArrFirst xs from rfl]
        rw [parseStep.eq_def]
        have hfa : fuelAF xs ≤ f := by
          rw [show fuelV (.arr xs) = 1 + fuelAF xs from rfl] at hf; omega
        simp [List.append_assoc, ihaf xs rest hfa]
      | obj kvs =>
        rw [show printJson (.obj kvs) = '{' :: printObjFirst kvs from rfl]
        rw [parseStep.eq_def]
        have hfo : fuelOF kvs ≤ f := by
          rw [show fuelV (.obj kvs) = 1 + fuelOF kvs from rfl] at hf; omega
        simp [List.append_assoc, ihof kvs rest hfo]
    · intro xs rest hf
      cases xs with
      | nil =>
        rw [show printArrFirst .nil = [']'] from rfl]
        rw [parseStep.eq_def]; simp
      | cons v vs =>
        rw [show printArrFirst (.cons v vs) = printJson v ++ printArrTail vs from rfl,
          List.append_assoc]
        obtain ⟨c, cs, hv, hc1, _, _⟩ := printJson_cons_head v
        have hhead := head?_append_of_eq_cons (t := printArrTail vs ++ rest) hv
        have hfv : fuelV v ≤ f := by
          rw [show fuelAF (.cons v vs) = 1 + max (fuelV v) (fuelAT vs) from rfl] at hf; omega
        have hft : fuelAT vs ≤ f := by
          rw [show fuelAF (.cons v vs) = 1 + max (fuelV v) (fuelAT vs) from rfl] at hf; omega
        rw [parseStep.eq_def]
        simp [hhead, hc1, ihv v _ hfv, ihat vs rest hft]
    · intro xs rest hf
      cases xs with
      | nil =>
        rw [show printArrTail .nil = [']'] from rfl]
        rw [parseStep.eq_def]; simp
      | cons v vs =>
        rw [show printArrTail (.cons v vs) = ',' :: (printJson v ++ printArrTail vs) from rfl]
        simp only [List.cons_append, List.append_assoc]
        have hfv : fuelV v ≤ f := by
          rw [show fuelAT (.cons v vs) = 1 + max (fuelV v) (fuelAT vs) from rfl] at hf; omega
        have hft : fuelAT vs ≤ f := by
          rw [show fuelAT (.cons v vs) = 1 + max (fuelV v) (fuelAT vs) from rfl] at hf; omega
        rw [parseStep.eq_def]
        simp [ihv v _ hfv, ihat vs rest hft]
    · intro kvs rest hf
      cases kvs with
      | nil =>
        rw [show printObjFirst .nil = ['}'] from rfl]
        rw [parseStep.eq_def]; simp
      | cons k v vs =>
        rw [show printObjFirst (.cons k v vs)
          = '"' :: (escapeString k ++ '"' :: ':' :: (printJson v ++ printObjTail vs)) from rfl]
        simp only [List.cons_append, List.append_assoc]
        have hfv : fuelV v ≤ f := by
          rw [show fuelOF (.cons k v vs) = 1 + max (fuelV v) (fuelOT vs) from rfl] at hf; omega
        have hft : fuelOT vs ≤ f := by
          rw [show fuelOF (.cons k v vs) = 1 + max (fuelV v) (fuelOT vs) from rfl] at hf; omega
        rw [parseStep.eq_def]
        have hkey : parseStringBody
            (escapeString k ++ '"' :: (':' :: (printJson v ++ printObjTail vs) ++ rest))
            = some (k, ':' :: (printJson v ++ printObjTail vs) ++ rest) :=
          parseStringBody_escape k _
        simp [List.append_assoc] at hkey ⊢
        simp [hkey, ihv v _ hfv, ihot vs rest hft]
    · intro kvs rest hf
      cases kvs with
      | nil =>
        rw [show printObjTail .nil = ['}'] from rfl]
        rw [parseStep.eq_def]; simp
      | cons k v vs =>
        rw [show printObjTail (.cons k v vs)
          = ',' :: '"' :: (escapeString k ++ '"' :: ':' :: (printJson v ++ printObjTail vs)) from rfl]
        simp only [List.cons_append, List.append_assoc]
        have hfv : fuelV v ≤ f := by
          rw [show fuelOT (.cons k v vs) = 1 + max (fuelV v) (fuelOT vs) from rfl] at hf; omega
        have hft : fuelOT vs ≤ f := by
          rw [show fuelOT (.cons k v vs) = 1 + max (fuelV v) (fuelOT vs) from rfl] at hf; omega
        rw [parseStep.eq_def]
        have hkey : parseStringBody
            (escapeString k ++ '"' :: (':' :: (printJson v ++ printObjTail vs) ++ rest))
            = some (k, ':' :: (printJson v ++ printObjTail vs) ++ rest) :=
          parseStringBody_escape k _
        simp [List.append_assoc] at hkey ⊢
        simp [hkey, ihv v _ hfv, ihot vs rest hft]

theorem fuel_le_print_length : ∀ n : Nat,
    (∀ v, fuelV v ≤ n → fuelV v ≤ (printJson v).length) ∧
    (∀ xs, fuelAF xs ≤ n → fuelAF xs ≤ (printArrFirst xs).length) ∧
    (∀ xs, fuelAT xs ≤ n → fuelAT xs ≤ (printArrTail xs).length) ∧
    (∀ kvs, fuelOF kvs ≤ n → fuelOF kvs ≤ (printObjFirst kvs).length) ∧
    (∀ kvs, fuelOT kvs ≤ n → fuelOT kvs ≤ (printObjTail kvs).length) := by
  intro n
  induction n with
  | zero =>
    refine ⟨?_, ?_, ?_, ?_, ?_⟩
    · intro v hf; have := one_le_fuelV v; omega
    · intro xs hf; have := one_le_fuelAF xs; omega
    · intro xs hf; have := one_le_fuelAT xs; omega
    · intro kvs hf; have := one_le_fuelOF kvs; omega
    · intro kvs hf; have := one_le_fuelOT kvs; omega
  | succ n ih =>
    obtain ⟨ihv, ihaf, ihat, ihof, ihot⟩ := ih
    refine ⟨?_, ?_, ?_, ?_, ?_⟩
    · intro v hf
      cases v with
      | null => simp [fuelV, printJson]
      | bool b => cases b <;> simp [fuelV, printJson]
      | str s => simp [fuelV, printJson]
      | arr xs =>
        rw [show fuelV (.arr xs) = 1 + fuelAF xs from rfl] at hf ⊢
        rw [show printJson (.arr xs) = '[' :: printArrFirst xs from rfl]
        have := ihaf xs (by omega)
        simp [List.length_cons]; omega
      | obj kvs =>
        rw [show fuelV (.obj kvs) = 1 + fuelOF kvs from rfl] at hf ⊢
        rw [show printJson (.obj kvs) = '{' :: printObjFirst kvs from rfl]
        have := ihof kvs (by omega)
        simp [List.length_cons]; omega
    · intro xs hf
      cases xs with
      | nil => simp [fuelAF, printArrFirst]
      | cons v vs =>
        rw [show fuelAF (.cons v vs) = 1 + max (fuelV v) (fuelAT vs) from rfl] at hf ⊢
        rw [show printArrFirst (.cons v vs) = printJson v ++ printArrTail vs from rfl]
        have h1 := ihv v (by omega)
        have h2 := ihat vs (by omega)
        have h3 := one_le_fuelV v
        have h4 := one_le_fuelAT vs
        simp [List.length_append]; omega
    · intro xs hf
      cases xs with
      | nil => simp [fuelAT, printArrTail]
      | cons v vs =>
        rw [show fuelAT (.cons v vs) = 1 + max (fuelV v) (fuelAT vs) from rfl] at hf ⊢
        rw [show printArrTail (.cons v vs) = ',' :: (printJson v ++ printArrTail vs) from rfl]
        have h1 := ihv v (by omega)
        have h2 := ihat vs (by omega)
        simp [List.length_cons, List.length_append]; omega
    · intro kvs hf
      cases kvs with
      | nil => simp [fuelOF, printObjFirst]
      | cons k v vs =>
        rw [show fuelOF (.cons k v vs) = 1 + max (fuelV v) (fuelOT vs) from rfl] at hf ⊢
        rw [show printObjFirst (.cons k v vs)
          = '"' :: (escapeString k ++ '"' :: ':' :: (printJson v ++ printObjTail vs)) from rfl]
        have h1 := ihv v (by omega)
        have h2 := ihot vs (by omega)
        simp [List.length_cons, List.length_append]; omega
    · intro kvs hf
      cases kvs with
      | nil => simp [fuelOT, printObjTail]
      | cons k v vs =>
        rw [show fuelOT (.cons k v vs) = 1 + max (fuelV v) (fuelOT vs) from rfl] at hf ⊢
        rw [show printObjTail (.cons k v vs)
          = ',' :: '"' :: (escapeString k ++ '"' :: ':' :: (printJson v ++ printObjTail vs)) from rfl]
        have h1 := ihv v (by omega)
        have h2 := ihot vs (by omega)
        simp [List.length_cons, List.length_append]; omega

theorem newline_not_mem_print : ∀ n : Nat,
    (∀ v, fuelV v ≤ n → '\n' ∉ printJson v) ∧
    (∀ xs, fuelAF xs ≤ n → '\n' ∉ printArrFirst xs) ∧
    (∀ xs, fuelAT xs ≤ n → '\n' ∉ printArrTail xs) ∧
    (∀ kvs, fuelOF kvs ≤ n → '\n' ∉ printObjFirst kvs) ∧
    (∀ kvs, fuelOT kvs ≤ n → '\n' ∉ printObjTail kvs) := by
  intro n
  induction n with
  | zero =>
    refine ⟨?_, ?_, ?_, ?_, ?_⟩
    · intro v hf; have := one_le_fuelV v; omega
    · intro xs hf; have := one_le_fuelAF xs; omega
    · intro xs hf; have := one_le_fuelAT xs; omega
    · intro kvs hf; have := one_le_fuelOF kvs; omega
    · intro kvs hf; have := one_le_fuelOT kvs; omega
  | succ n ih =>
    obtain ⟨ihv, ihaf, ihat, ihof, ihot⟩ := ih
    refine ⟨?_, ?_, ?_, ?_, ?_⟩
    · intro v hf
      cases v with
      | null => decide
      | bool b => cases b <;> decide
      | str s =>
        rw [show printJson (.str s) = '"' :: (escapeString s ++ ['"']) from rfl]
        have := newline_not_mem_escapeString s
        simp_all
      | arr xs =>
        rw [show printJson (.arr xs) = '[' :: printArrFirst xs from rfl]
        rw [show fuelV (.arr xs) = 1 + fuelAF xs from rfl] at hf
        have := ihaf xs (by omega)
        simp_all
      | obj kvs =>
        rw [show printJson (.obj kvs) = '{' :: printObjFirst kvs from rfl]
        rw [show fuelV (.obj kvs) = 1 + fuelOF kvs from rfl] at hf
        have := ihof kvs (by omega)
        simp_all
    · intro xs hf
      cases xs with
      | nil => decide
      | cons v vs =>
        rw [show printArrFirst (.cons v vs) = printJson v ++ printArrTail vs from rfl]
        rw [show fuelAF (.cons v vs) = 1 + max (fuelV v) (fuelAT vs) from rfl] at hf
        have h1 := ihv v (by omega)
        have h2 := ihat vs (by omega)
        simp_all
    · intro xs hf
      cases xs with
      | nil => decide
      | cons v vs =>
        rw [show printArrTail (.cons v vs) = ',' :: (printJson v ++ printArrTail vs) from rfl]
        rw [show fuelAT (.cons v vs) = 1 + max (fuelV v) (fuelAT vs) from rfl] at hf
        have h1 := ihv v (by omega)
        have h2 := ihat vs (by omega)
        simp_all
    · intro kvs hf
      cases kvs with
      | nil => decide
      | cons k v vs =>
        rw [show printObjFirst (.cons k v vs)
          = '"' :: (escapeString k ++ '"' :: ':' :: (printJson v ++ printObjTail vs)) from rfl]
        rw [show fuelOF (.cons k v vs) = 1 + max (fuelV v) (fuelOT vs) from rfl] at hf
        have h1 := ihv v (by omega)
        have h2 := ihot vs (by omega)
        have h3 := newline_not_mem_escapeString k
        simp_all
    · intro kvs hf
      cases kvs with
      | nil => decide
      | cons k v vs =>
        rw [show printObjTail (.cons k v vs)
          = ',' :: '"' :: (escapeString k ++ '"' :: ':' :: (printJson v ++ printObjTail vs)) from rfl]
        rw [show fuelOT (.cons k v vs) = 1 + max (fuelV v) (fuelOT vs) from rfl] at hf
        have h1 := ihv v (by omega)
        have h2 := ihot vs (by omega)
        have h3 := newline_not_mem_escapeString k
        simp_all

theorem newline_not_mem_printJson (v : Json) : '\n' ∉ printJson v :=
  (newline_not_mem_print (fuelV v)).1 v le_rfl

theorem newline_not_mem_lineBody (p : StreamPart) : '\n' ∉ lineBody p := by
  cases p with
  | text s =>
    rw [show lineBody (.text s) = '0' :: ':' :: '"' :: (escapeString s ++ ['"']) from rfl]
    have := newline_not_mem_escapeString s
    simp_all
  | data xs =>
    rw [show lineBody (.data xs) = '2' :: ':' :: printJson (.arr xs) from rfl]
    have := newline_not_mem_printJson (.arr xs)
    simp_all

/-! ## Helper lemmas: line splitting and stream round trip -/

theorem splitLines_append (l : List Char) (hl : '\n' ∉ l) (s : List Char) :
    splitLines (l ++ '\n' :: s) = (l :: (splitLines s).1, (splitLines s).2) := by
  induction l with
  | nil =>
    rw [List.nil_append, splitLines.eq_def]
    simp
  | cons c cs ih =>
    have hc : c ≠ '\n' := fun h => hl (by simp [h])
    have hcs : '\n' ∉ cs := fun h => hl (by simp [h])
    rw [List.cons_append, splitLines.eq_def]
    simp only [if_neg hc]
    rw [ih hcs]

theorem decodeLine_textLineBody (s : List Char) :
    decodeLine (textLineBody s) = some (.text s) := by
  rw [textLineBody, decodeLine.eq_def]
  simp only []
  have hlen : (('"' :: (escapeString s ++ ['"'])) : List Char).length
      = (escapeString s ++ ['"']).length + 1 := List.length_cons _ _
  rw [hlen, parseStep.eq_def]
  have hp : parseStringBody (escapeString s ++ ['"']) = some (s, []) := by
    have := parseStringBody_escape s []
    simpa using this
  simp [hp]

theorem decodeLine_dataLineBody (xs : JsonList) :
    decodeLine (dataLineBody xs) = some (.data xs) := by
  rw [dataLineBody, decodeLine.eq_def]
  simp only []
  have hfuel : fuelV (.arr xs) ≤ (printJson (.arr xs)).length :=
    (fuel_le_print_length (fuelV (.arr xs))).1 _ le_rfl
  have hp := (parseStep_print ((printJson (.arr xs)).length)).1 (.arr xs) [] hfuel
  rw [List.append_nil] at hp
  simp [hp]

theorem decodeLine_lineBody (p : StreamPart) : decodeLine (lineBody p) = some p := by
  cases p with
  | text s => exact decodeLine_textLineBody s
  | data xs => exact decodeLine_dataLineBody xs

theorem splitLines_encodeStream (ps : List StreamPart) :
    splitLines (encodeStream ps) = (ps.map lineBody, []) := by
  induction ps with
  | nil => rfl
  | cons p ps ih =>
    rw [show encodeStream (p :: ps) = encodePart p ++ encodeStream ps from by
      simp [encodeStream]]
    rw [show encodePart p = lineBody p ++ ['\n'] from rfl, List.append_assoc,
      List.singleton_append]
    rw [splitLines_append (lineBody p) (newline_not_mem_lineBody p) (encodeStream ps), ih]
    simp

theorem decodeLines_map_lineBody (ps : List StreamPart) :
    decodeLines (ps.map lineBody) = some ps := by
  induction ps with
  | nil => rfl
  | cons p ps ih =>
    rw [List.map_cons, decodeLines, decodeLine_lineBody, ih]

theorem decodeStream_encodeStream (ps : List StreamPart) :
    decodeStream (encodeStream ps) = some ps := by
  rw [decodeStream, splitLines_encodeStream]
  exact decodeLines_map_lineBody ps

/-! ## Helper lemmas: multiplexer closing-order invariant -/

theorem outTexts_append (a b : List OutItem) :
    outTexts (a ++ b) = outTexts a ++ outTexts b := by
  simp [outTexts]

theorem outData_append (a b : List OutItem) :
    outData (a ++ b) = outData a ++ outData b := by
  simp [outData]

theorem muxInv_init (t : List (List Char)) : MuxInv t (initMux t) := by
  refine ⟨?_, ?_, ?_, ?_⟩ <;> simp [initMux, outTexts, outData]

theorem muxInv_step {t : List (List Char)} {s s' : MuxState}
    (hstep : MuxStep s s') (hinv : MuxInv t s) : MuxInv t s' := by
  obtain ⟨h1, h2, h3, h4⟩ := hinv
  cases hstep with
  | emitText f rest htext hfin =>
    refine ⟨?_, ?_, ?_, ?_⟩
    · simp only [outTexts_append]
      rw [show outTexts [OutItem.line (.text f)] = [f] from rfl]
      rw [htext] at h1
      simpa using h1
    · simp only [outData_append]
      rw [show outData [OutItem.line (.text f)] = [] from rfl]
      simpa using h2
    · intro _
      simp only [List.mem_append]
      rintro (h | h)
      · exact h3 hfin h
      · simp at h
    · intro hcontra
      simp at hcontra
      rw [hcontra] at hfin
      cases hfin
  | appendData b hcl hfin =>
    refine ⟨?_, ?_, ?_, ?_⟩
    · simp only [outTexts_append]
      rw [show outTexts [OutItem.line (.data b)] = [] from rfl]
      simpa using h1
    · simp only [outData_append]
      rw [show outData [OutItem.line (.data b)] = [b] from rfl]
      simpa using h2
    · intro _
      simp only [List.mem_append]
      rintro (h | h)
      · exact h3 hfin h
      · simp at h
    · intro hcontra
      simp at hcontra
      rw [hcontra] at hfin
      cases hfin
  | closeData hcl hfin =>
    exact ⟨h1, h2, fun _ => h3 hfin, fun hcontra => by
      simp at hcontra
      rw [hcontra] at hfin
      cases hfin⟩
  | finish htext hcl hfin =>
    refine ⟨?_, ?_, ?_, ?_⟩
    · simp only [outTexts_append]
      rw [show outTexts [OutItem.eos] = [] from rfl]
      simpa using h1
    · simp only [outData_append]
      rw [show outData [OutItem.eos] = [] from rfl]
      simpa using h2
    · intro hcontra
      simp at hcontra
    · intro _
      exact ⟨htext, hcl, s.out, rfl, h3 hfin⟩

theorem muxInv_reach {t : List (List Char)} {s : MuxState}
    (h : MuxReach t s) : MuxInv t s := by
  induction h with
  | refl => exact muxInv_init t
  | tail _ hstep ih => exact muxInv_step hstep ih

/-! ## Helper lemmas: the useCompletion read loop -/

theorem readLoop_abort (k : Nat) :
    ∀ (chunks : List (List Char)) (i : Nat) (acc : List Char),
      k ≤ chunks.length →
      (readLoop chunks (some (i + k)) i acc).2
        = (acc ++ (chunks.take k).flatten, true) := by
  induction k with
  | zero =>
    intro chunks i acc _
    rw [readLoop.eq_def]
    simp
  | succ k ih =>
    intro chunks i acc hk
    cases chunks with
    | nil => simp at hk
    | cons c rest =>
      rw [readLoop.eq_def]
      have hne : ¬(some (i + (k + 1)) = some i) := by
        intro h
        have := Option.some.inj h
        omega
      simp only [if_neg hne, loopAbortCheck, Option.isNone_some, Bool.false_eq_true,
        if_false]
      have harg : i + (k + 1) = (i + 1) + k := by omega
      rw [harg]
      have := ih rest (i + 1) (acc ++ c) (by simpa using hk)
      simp only [this]
      simp [List.take_succ_cons, List.flatten_cons, List.append_assoc]

theorem readLoop_reads_le (chunks : List (List Char)) :
    ∀ (a i : Nat) (acc : List Char), i ≤ a →
      ∀ j, Ev.readStart j ∈ (readLoop chunks (some a) i acc).1 → j ≤ a := by
  induction chunks with
  | nil =>
    intro a i acc hia j hj
    rw [readLoop.eq_def] at hj
    by_cases h : (some a : Option Nat) = some i
    · simp only [if_pos h] at hj
      simp at hj
      omega
    · simp only [if_neg h] at hj
      simp at hj
      omega
  | cons c rest ih =>
    intro a i acc hia j hj
    rw [readLoop.eq_def] at hj
    by_cases h : (some a : Option Nat) = some i
    · simp only [if_pos h] at hj
      simp at hj
      omega
    · have hne : i ≠ a := fun hh => h (by rw [hh])
      simp only [if_neg h, loopAbortCheck, Option.isNone_some, Bool.false_eq_true,
        if_false] at hj
      simp only [List.mem_cons] at hj
      rcases hj with hj | hj | hj
      · cases hj; omega
      · cases hj
      · exact ih a (i + 1) (acc ++ c) (by omega) j hj

theorem readLoop_read_count (k : Nat) :
    ∀ (chunks : List (List Char)) (i : Nat) (acc : List Char),
      k ≤ chunks.length →
      countReads (readLoop chunks (some (i + k)) i acc).1 = k + 1 := by
  induction k with
  | zero =>
    intro chunks i acc _
    rw [readLoop.eq_def]
    simp [countReads, isRead]
  | succ k ih =>
    intro chunks i acc hk
    cases chunks with
    | nil => simp at hk
    | cons c rest =>
      rw [readLoop.eq_def]
      have hne : ¬(some (i + (k + 1)) = some i) := by
        intro h
        have := Option.some.inj h
        omega
      simp only [if_neg hne, loopAbortCheck, Option.isNone_some, Bool.false_eq_true,
        if_false]
      have harg : i + (k + 1) = (i + 1) + k := by omega
      rw [harg]
      have := ih rest (i + 1) (acc ++ c) (by simpa using hk)
      simp [countReads, isRead] at this ⊢
      omega

/-! ## Helper lemmas: plain-mode pipeline and encoder concatenation -/

theorem encodeStream_append (xs ys : List StreamPart) :
    encodeStream (xs ++ ys) = encodeStream xs ++ encodeStream ys := by
  simp [encodeStream]

theorem canonicalText_frames (texts : List (List Char)) :
    ∀ (fin : List Char) (after : List ProviderFrame),
      canonicalText
        ((texts.map fun t => ProviderFrame.mk t false)
          ++ ProviderFrame.mk fin true :: after)
        = texts := by
  induction texts with
  | nil => intro fin after; simp [canonicalText]
  | cons t ts ih =>
    intro fin after
    simp only [List.map_cons, List.cons_append]
    rw [show canonicalText (ProviderFrame.mk t false ::
        ((ts.map fun t => ProviderFrame.mk t false) ++ ProviderFrame.mk fin true :: after))
      = t :: canonicalText ((ts.map fun t => ProviderFrame.mk t false)
          ++ ProviderFrame.mk fin true :: after) from by
        simp [canonicalText]]
    rw [ih fin after]

/-! ## Claim theorems -/

/-- C1: In tagged (stream-data) mode, for a session where exactly one data
event with field t1 and value v1 is appended before any text fragment is
emitted, the encoded byte stream begins with the sixteen bytes of the line
carrying tag 2 and the JSON array holding that object, and is then
followed by one tag-0 line per text fragment (the JSON-string-encoded
fragment between a 0-colon-quote prefix and a quote-newline suffix), in
the fragments' original order. -/
theorem claimC1_tagged_first_data_line (frags : List (List Char)) :
    encodeStream (.data c1Batch :: frags.map .text)
      = ('2' :: ':' :: '[' :: '{' :: '"' :: 't' :: '1' :: '"' :: ':' :: '"' :: 'v' :: '1'
          :: '"' :: '}' :: ']' :: '\n' :: [])
        ++ (frags.map fun s =>
            '0' :: ':' :: '"' :: (escapeString s ++ ['"', '\n'])).flatten := by
  rw [show StreamPart.data c1Batch :: frags.map .text
    = [StreamPart.data c1Batch] ++ frags.map .text from rfl]
  rw [encodeStream_append]
  have h1 : encodeStream [StreamPart.data c1Batch]
      = ('2' :: ':' :: '[' :: '{' :: '"' :: 't' :: '1' :: '"' :: ':' :: '"' :: 'v' :: '1'
          :: '"' :: '}' :: ']' :: '\n' :: []) := by decide
  have h2 : encodeStream (frags.map .text)
      = (frags.map fun s =>
          '0' :: ':' :: '"' :: (escapeString s ++ ['"', '\n'])).flatten := by
    rw [encodeStream, List.map_map]
    have hfun : ∀ s : List Char,
        (encodePart ∘ StreamPart.text) s
          = '0' :: ':' :: '"' :: (escapeString s ++ ['"', '\n']) := by
      intro s
      simp [encodePart, lineBody, textLineBody, Function.comp, List.append_assoc]
    rw [List.map_congr_left fun s _ => hfun s]
  rw [h1, h2]

/-- C2: In plain (untagged) mode, for an upstream whose frames decode to
the fragments " Hello", ",", " world", ".", " " followed by the provider's
terminal marker, the decoded client output is exactly that sequence of
fragments, in that order, with nothing added, dropped, or reordered. -/
theorem claimC2_plain_mode_passthrough (fin : List Char) (after : List ProviderFrame) :
    plainPipeline
      ((cohereFrags.map fun t => ProviderFrame.mk t false)
        ++ ProviderFrame.mk fin true :: after)
      = cohereFrags := by
  rw [plainPipeline, canonicalText_frames]
  simp [plainEncode, plainDecodeChunks]

/-- C5: For every text sequence containing an empty-string fragment, the
encoder emits the five bytes of the decodable line 0:""-newline for that
fragment at its original position; the decoder yields it back as an empty
text fragment in its original position; and in plain mode the empty
fragment passes through unfiltered.  Empty fragments are never filtered
out or treated as absence of output. -/
theorem claimC5_empty_fragment_preserved (pre post : List StreamPart) :
    (encodeStream (pre ++ .text [] :: post)
      = encodeStream pre ++ ('0' :: ':' :: '"' :: '"' :: '\n' :: []) ++ encodeStream post)
    ∧ decodeStream (encodeStream (pre ++ .text [] :: post))
      = some (pre ++ .text [] :: post)
    ∧ ∀ pre2 post2 : List (List Char),
        plainDecodeChunks (plainEncode (pre2 ++ [] :: post2)) = pre2 ++ [] :: post2 := by
  refine ⟨?_, decodeStream_encodeStream _, ?_⟩
  · rw [show pre ++ StreamPart.text [] :: post
      = pre ++ ([StreamPart.text []] ++ post) from by simp]
    rw [encodeStream_append, encodeStream_append]
    rw [show encodeStream [StreamPart.text []]
      = '0' :: ':' :: '"' :: '"' :: '\n' :: [] from by decide]
    simp [List.append_assoc]
  · intro pre2 post2
    simp [plainDecodeChunks, plainEncode]

/-- C6: For every text fragment sequence T and every sequence of data-event
batches D, arranged in any interleaving as a sequence of stream parts,
encoding them through the protocol encoder and then decoding the resulting
byte stream yields back exactly the same parts: every fragment of T
fragment-for-fragment and every batch of D, all in their original relative
order. -/
theorem claimC6_roundtrip (parts : List StreamPart) :
    decodeStream (encodeStream parts) = some parts :=
  decodeStream_encodeStream parts

/-- C3: For every interleaving of text production and data-producer calls
(every reachable multiplexer state), the combined encoded stream never
signals end-of-stream before both the canonical text sequence has been
fully drained and close has been called on the data-event producer: if the
end-of-stream marker has been emitted, the pending text is empty, the data
channel is closed, the marker is the last output item, and all text lines
(the full text sequence, in order) and all appended data batches (in
order) appear in the output before it. -/
theorem claimC3_closing_order (t : List (List Char)) (s : MuxState)
    (hreach : MuxReach t s) (heos : OutItem.eos ∈ s.out) :
    s.text = [] ∧ s.closed = true ∧
    ∃ pre, s.out = pre ++ [OutItem.eos] ∧ OutItem.eos ∉ pre ∧
      outTexts pre = t ∧ outData pre = s.appended := by
  obtain ⟨h1, h2, h3, h4⟩ := muxInv_reach hreach
  have hfin : s.finished = true := by
    cases hsf : s.finished
    · exact absurd heos (h3 hsf)
    · rfl
  obtain ⟨htext, hcl, pre, hout, hpre⟩ := h4 hfin
  refine ⟨htext, hcl, pre, hout, hpre, ?_, ?_⟩
  · rw [hout, htext] at h1
    rw [outTexts_append] at h1
    rw [show outTexts [OutItem.eos] = [] from rfl] at h1
    simpa using h1
  · rw [hout] at h2
    rw [outData_append] at h2
    rw [show outData [OutItem.eos] = [] from rfl] at h2
    simpa using h2

/-- Witness for C3: a concrete session whose text sequence is the two
fragments Hel and lo, with one data batch appended before any text and
close invoked only after the last fragment; the finished state satisfies
the closing-order conclusion. -/
theorem claimC3_closing_order_witness :
    ({ text := [], closed := true, appended := [JsonList.cons Json.null .nil],
       out := [OutItem.line (.data (JsonList.cons Json.null .nil)),
               OutItem.line (.text ['H', 'e', 'l']),
               OutItem.line (.text ['l', 'o']), OutItem.eos],
       finished := true } : MuxState).text = []
    ∧ ({ text := [], closed := true, appended := [JsonList.cons Json.null .nil],
         out := [OutItem.line (.data (JsonList.cons Json.null .nil)),
                 OutItem.line (.text ['H', 'e', 'l']),
                 OutItem.line (.text ['l', 'o']), OutItem.eos],
         finished := true } : MuxState).closed = true
    ∧ ∃ pre,
        ({ text := [], closed := true, appended := [JsonList.cons Json.null .nil],
           out := [OutItem.line (.data (JsonList.cons Json.null .nil)),
                   OutItem.line (.text ['H', 'e', 'l']),
                   OutItem.line (.text ['l', 'o']), OutItem.eos],
           finished := true } : MuxState).out = pre ++ [OutItem.eos]
        ∧ OutItem.eos ∉ pre
        ∧ outTexts pre = [['H', 'e', 'l'], ['l', 'o']]
        ∧ outData pre
            = ({ text := [], closed := true, appended := [JsonList.cons Json.null .nil],
                 out := [OutItem.line (.data (JsonList.cons Json.null .nil)),
                         OutItem.line (.text ['H', 'e', 'l']),
                         OutItem.line (.text ['l', 'o']), OutItem.eos],
                 finished := true } : MuxState).appended := by
  refine claimC3_closing_order [['H', 'e', 'l'], ['l', 'o']] _ ?_ (by decide)
  exact Relation.ReflTransGen.tail
    (Relation.ReflTransGen.tail
      (Relation.ReflTransGen.tail
        (Relation.ReflTransGen.tail
          (Relation.ReflTransGen.single
            (MuxStep.appendData _ (JsonList.cons Json.null .nil) rfl rfl))
          (MuxStep.emitText _ ['H', 'e', 'l'] [['l', 'o']] rfl rfl))
        (MuxStep.emitText _ ['l', 'o'] [] rfl rfl))
      (MuxStep.closeData _ rfl rfl))
    (MuxStep.finish _ rfl rfl rfl)

/-- C4: For every session cancelled mid-stream by the consumer (an abort
delivered while read i is pending, after i chunks were delivered), the
already-accumulated partial completion text remains visible unchanged (the
concatenation of the delivered chunks), the session ends in the aborted
state rather than the errored state, and no error is surfaced to the
consumer. -/
theorem claimC4_abort_preserves_partial (chunks : List (List Char)) (i : Nat)
    (hi : i ≤ chunks.length) :
    (runTrigger (.resp true true chunks) (some i)).2.1 = (chunks.take i).flatten
    ∧ (runTrigger (.resp true true chunks) (some i)).2.2 = .aborted
    ∧ ∀ msg, (runTrigger (.resp true true chunks) (some i)).2.2 ≠ .errored msg := by
  have h := readLoop_abort i chunks 0 [] hi
  rw [Nat.zero_add] at h
  simp only [runTrigger]
  simp [h]

/-- Witness for C4: the fragments Hel and lo are delivered, then the
session is cancelled before a third fragment arrives; the visible
completion is Hello and the session is aborted. -/
theorem claimC4_abort_preserves_partial_witness :
    (runTrigger (.resp true true [['H', 'e', 'l'], ['l', 'o']]) (some 2)).2.1
      = ['H', 'e', 'l', 'l', 'o']
    ∧ (runTrigger (.resp true true [['H', 'e', 'l'], ['l', 'o']]) (some 2)).2.2
      = .aborted := by
  have h := claimC4_abort_preserves_partial [['H', 'e', 'l'], ['l', 'o']] 2 (by decide)
  exact ⟨h.1.trans (by decide), h.2.1⟩

/-- C7: Completion state is kept in a shared external cache keyed by the
session identifier together with the endpoint: any two consumer instances
configured with the same non-empty session key observe the same completion
value (their cache keys coincide, so any read of the shared cache agrees);
the key is exactly the endpoint paired with the supplied id; when no
session key is supplied the key is the endpoint paired with the instance's
own freshly generated hook id, so two instances with distinct generated
ids share state with no other instance. -/
theorem claimC7_shared_completion_key :
    (∀ (cache : String × String → List Char) (api s h1 h2 : String), s ≠ "" →
      cacheRead cache (swrKey api (some s) h1)
        = cacheRead cache (swrKey api (some s) h2))
    ∧ (∀ (api s h : String), s ≠ "" → swrKey api (some s) h = (api, s))
    ∧ (∀ (api h : String), swrKey api none h = (api, h))
    ∧ (∀ (api h1 h2 : String), h1 ≠ h2 →
        swrKey api none h1 ≠ swrKey api none h2) := by
  refine ⟨?_, ?_, ?_, ?_⟩
  · intro cache api s h1 h2 hs
    simp [cacheRead, swrKey, completionId, hs]
  · intro api s h hs
    simp [swrKey, completionId, hs]
  · intro api h
    rfl
  · intro api h1 h2 hne
    simp only [swrKey, completionId, ne_eq, Prod.mk.injEq, not_and]
    intro _
    exact hne

/-- Witness for C7: two hook instances sharing the session key x observe
the same cached completion, and two instances with distinct generated
hook ids and no supplied key get distinct cache keys. -/
theorem claimC7_shared_completion_key_witness :
    cacheRead (fun _ => ['z']) (swrKey "/api/completion" (some "x") "h1")
      = cacheRead (fun _ => ['z']) (swrKey "/api/completion" (some "x") "h2")
    ∧ swrKey "/api/completion" none "h1" ≠ swrKey "/api/completion" none "h2" := by
  exact ⟨claimC7_shared_completion_key.1 (fun _ => ['z']) "/api/completion" "x" "h1" "h2"
      (by decide),
    claimC7_shared_completion_key.2.2.2 "/api/completion" "h1" "h2" (by decide)⟩

/-- C8: After the consumer's cancellation signal is raised (delivered at
the suspension point of read a, the only place the cooperative
single-threaded model can deliver it), the reader stops issuing further
reads promptly rather than draining the upstream to natural completion: no
read with an index beyond a is ever started, and when the upstream still
had chunks left the total number of reads issued is exactly a plus one
(the reads before the signal plus the one rejected by it). -/
theorem claimC8_no_read_after_cancel :
    (∀ (chunks : List (List Char)) (a j : Nat),
      Ev.readStart j ∈ (runTrigger (.resp true true chunks) (some a)).1 → j ≤ a)
    ∧ (∀ (chunks : List (List Char)) (a : Nat), a ≤ chunks.length →
        countReads (runTrigger (.resp true true chunks) (some a)).1 = a + 1) := by
  constructor
  · intro chunks a j hj
    simp only [runTrigger, Bool.not_true, Bool.false_eq_true, if_false,
      List.mem_cons] at hj
    have hj2 : Ev.readStart j ∈ (readLoop chunks (some a) 0 []).1 := by
      rcases hj with h | h | h
      · exact absurd h (by simp)
      · exact absurd h (by simp)
      · exact h
    exact readLoop_reads_le chunks a 0 [] (Nat.zero_le a) j hj2
  · intro chunks a ha
    have h := readLoop_read_count a chunks 0 [] ha
    rw [Nat.zero_add] at h
    simp only [runTrigger]
    simp only [countReads, isRead, List.filter_cons] at h ⊢
    simpa using h

/-- Witness for C8: three chunks are available but the abort signal is
delivered at read 1; the read at index 1 is in the trace with index at
most 1, and exactly two reads are ever issued. -/
theorem claimC8_no_read_after_cancel_witness :
    (1 : Nat) ≤ 1
    ∧ countReads (runTrigger (.resp true true [['a'], ['b'], ['c']]) (some 1)).1 = 2 := by
  exact ⟨claimC8_no_read_after_cancel.1 [['a'], ['b'], ['c']] 1 1 (by decide),
    claimC8_no_read_after_cancel.2 [['a'], ['b'], ['c']] 1 (by decide)⟩

/-- C9: For every request that fails at the transport level (connection
failure, non-success HTTP status, or missing response body), the session
ends in a terminal errored state surfaced to the consumer, no retry is
attempted (the trace holds exactly one fetch), and no further completion
updates occur (the only cache write is the initial reset). -/
theorem claimC9_transport_failure_terminal (t : Transport) (a : Option Nat)
    (hfail : isTransportFailure t = true) :
    (runTrigger t a).1 = [.writeCompletion [], .fetchStart]
    ∧ (∃ msg, (runTrigger t a).2.2 = .errored msg)
    ∧ writesOf (runTrigger t a).1 = [[]]
    ∧ countFetches (runTrigger t a).1 = 1 := by
  cases t with
  | connFail =>
    refine ⟨rfl, ⟨"connection error", rfl⟩, rfl, rfl⟩
  | resp ok hasBody chunks =>
    cases ok with
    | false =>
      refine ⟨?_, ⟨"Failed to fetch the completion response.", ?_⟩, ?_, ?_⟩ <;>
        simp [runTrigger, writesOf, countFetches, isFetch]
    | true =>
      cases hasBody with
      | false =>
        refine ⟨?_, ⟨"The response body is empty.", ?_⟩, ?_, ?_⟩ <;>
          simp [runTrigger, writesOf, countFetches, isFetch]
      | true =>
        simp [isTransportFailure] at hfail

/-- Witness for C9: a connection failure produces the errored outcome, a
trace of exactly the reset write and the single fetch, and no completion
update beyond the reset. -/
theorem claimC9_transport_failure_terminal_witness :
    (runTrigger .connFail none).1 = [.writeCompletion [], .fetchStart]
    ∧ (∃ msg, (runTrigger .connFail none).2.2 = .errored msg)
    ∧ writesOf (runTrigger .connFail none).1 = [[]]
    ∧ countFetches (runTrigger .connFail none).1 = 1 :=
  claimC9_transport_failure_terminal .connFail none (by decide)

/-- C10: Whenever a new completion request is started via the trigger, the
shared completion value is reset to the empty string before the request is
issued and before any fragment arrives: the first two trace events are the
empty-string cache write followed by the fetch, and the visible completion
right after the first event is empty, discarding any previously visible
text including a supplied initialCompletion. -/
theorem claimC10_reset_before_fetch (t : Transport) (a : Option Nat)
    (prev : List Char) :
    (runTrigger t a).1.take 2 = [.writeCompletion [], .fetchStart]
    ∧ visibleAfter prev ((runTrigger t a).1.take 1) = [] := by
  cases t with
  | connFail =>
    exact ⟨rfl, rfl⟩
  | resp ok hasBody chunks =>
    cases ok with
    | false => exact ⟨rfl, rfl⟩
    | true =>
      cases hasBody with
      | false => exact ⟨rfl, rfl⟩
      | true =>
        constructor <;> simp [runTrigger, visibleAfter, applyEv]
